import Mathlib

/-!
Verification of the clockmail viewer (`cmv`) snapshot/rendering engine.

The definitions below are a shallow embedding of the Go sources:
  - `cmd/cmv/main.go`        (navigation state machine, timeline analyzer,
                              space-time diagram layout, word wrapping,
                              agent-detail rendering helpers)
  - `internal/snapshot/snapshot.go`  (snapshot builder)
  - `internal/datasource/watch.go`   (debounced change watcher)

Go strings are modelled as `List Char` where the code slices by byte index
(`wrapText`, `truncate`), and as `String` where only equality is used
(agent ids, lock paths).  Go `int64` values are modelled as `Int`.
-/

namespace ClockmailViewer

/-- Event kinds, from the external `pkg/model` package: `EventMsg`,
`EventLockReq`, `EventLockRel`, `EventProgress`, plus a catch-all for
unknown kind tags (the Go type is a string; the renderer has a default
branch for unrecognized values). -/
inductive EventKind where
  | msg
  | lockReq
  | lockRel
  | progress
  | other (tag : String)
  deriving DecidableEq, Repr

/-- `model.Event`: one append-only record of the coordination store. -/
structure Event where
  id : Int
  agentID : String
  lamportTS : Int
  kind : EventKind
  target : String
  body : List Char
  epoch : Int
  round : Int
  deriving DecidableEq, Repr

/-- `model.Agent`.  `lastSeen` is a wall-clock instant in seconds. -/
structure Agent where
  id : String
  clock : Int
  epoch : Int
  round : Int
  lastSeen : Int
  deriving DecidableEq, Repr

/-- `model.Timestamp`: an (epoch, round) progress position. -/
structure Timestamp where
  epoch : Int
  round : Int
  deriving DecidableEq, Repr

/-- `model.Pointstamp`. -/
structure Pointstamp where
  agentID : String
  timestamp : Timestamp
  deriving DecidableEq, Repr

/-- `model.Lock`.  `expiresAt` is a wall-clock instant in seconds. -/
structure Lock where
  path : String
  agentID : String
  lamportTS : Int
  epoch : Int
  expiresAt : Int
  deriving DecidableEq, Repr

/-- `frontier.FrontierStatus` (external collaborator's result type). -/
structure FrontierStatus where
  safeToFinalize : Bool
  blockedBy : List Pointstamp
  deriving DecidableEq, Repr

/-- `snapshot.DataSnapshot`: the immutable aggregate built on each refresh.
`frontierStatus` is the per-agent map, keyed by agent id; `builtAt` is the
assembly instant. -/
structure DataSnapshot where
  agents : List Agent
  events : List Event
  locks : List Lock
  frontier : List Pointstamp
  frontierStatus : List (String × FrontierStatus)
  activeAgents : Nat
  staleAgents : Nat
  totalEvents : Int
  activeLocks : Nat
  builtAt : Int
  deriving Repr

/-! ### Navigation state machine: snapshot swap and cursor clamping
(`uiModel.Update`, `snapshotReadyMsg` branch, main.go lines 554-565) -/

/-- The navigation-state fields of `uiModel` relevant to agent selection.
`selectedAgent` is a Go `int`, modelled as `Int`. -/
structure NavState where
  selectedAgent : Int
  snap : DataSnapshot

/-- The `snapshotReadyMsg` branch of `uiModel.Update`.  `none` models a
message carrying an error (or nil snapshot): the old snapshot and cursor are
retained.  `some s` models a successful build: the snapshot is swapped in and
`selectedAgent` is clamped exactly as in the Go code
(`if len(m.snap.Agents) == 0 { m.selectedAgent = 0 } else if
m.selectedAgent >= len(m.snap.Agents) { m.selectedAgent = len-1 }`). -/
def processSnapshotReady (st : NavState) (result : Option DataSnapshot) : NavState :=
  match result with
  | none => st
  | some s =>
    if s.agents.length = 0 then
      { selectedAgent := 0, snap := s }
    else if (s.agents.length : Int) ≤ st.selectedAgent then
      { selectedAgent := (s.agents.length : Int) - 1, snap := s }
    else
      { st with snap := s }

/-- The agent-selection invariant demanded by the spec: the cursor is inside
`[0, agentCount-1]`, collapsing to `0` when the agent list is empty. -/
def selInvariant (sel : Int) (agentCount : Nat) : Prop :=
  (agentCount = 0 ∧ sel = 0) ∨ (0 ≤ sel ∧ sel < (agentCount : Int))

/-! ### Causal/Timeline analyzer (main.go lines 1016-1065) -/

/-- `timelineGroup`: events sharing one Lamport timestamp. -/
structure TimelineGroup where
  lamportTS : Int
  events : List Event
  deriving DecidableEq, Repr

/-- The loop body of `groupByLamport`: `current` is the group being
accumulated, `rest` the events still to process.  On a timestamp change the
current group is emitted and a fresh one started; the final group is emitted
when the input is exhausted. -/
def groupLoop (current : TimelineGroup) : List Event → List TimelineGroup
  | [] => [current]
  | e :: es =>
    if e.lamportTS ≠ current.lamportTS then
      current :: groupLoop { lamportTS := e.lamportTS, events := [e] } es
    else
      groupLoop { current with events := current.events ++ [e] } es

/-- `groupByLamport` (main.go 1023-1038): groups events by Lamport timestamp.
The Go loop starts from `current = {lamportTS: events[0].LamportTS}` with an
empty member list and iterates over the whole input. -/
def groupByLamport (events : List Event) : List TimelineGroup :=
  match events with
  | [] => []
  | e0 :: _ => groupLoop { lamportTS := e0.lamportTS, events := [] } events

/-- `isConcurrentGroup` (main.go 1041-1052): a group with at most one event is
not concurrent; otherwise scan `events[1:]` for an agent id differing from the
first event's. -/
def isConcurrentGroup (g : TimelineGroup) : Bool :=
  if g.events.length ≤ 1 then
    false
  else
    match g.events with
    | [] => false
    | e0 :: rest => rest.any (fun e => e.agentID != e0.agentID)

/-- `buildCausalSet` (main.go 1057-1065): the set of event ids whose event is a
message send.  The Go code builds a `map[int64]bool`; only ids of
message-kind events are inserted. -/
def buildCausalSet (events : List Event) : Finset Int :=
  events.foldl
    (fun causal e => if e.kind = EventKind.msg then insert e.id causal else causal) ∅

/-! ### Word wrapping (main.go 1727-1772) -/

/-- The inner scan of `wrapParagraph` (`for i := width; i > 0; i--`): the
largest index `i` in `[1, bound]` with `s[i] == ' '`.  `none` models Go's
`cut == -1` not-found case (the loop requires `i > 0`, so `cut` is never 0 and
Go's `cut <= 0` test is exactly the not-found test).  All call sites
guarantee `bound < s.length`, so the out-of-range default character is
never consulted. -/
def findSpace (s : List Char) : Nat → Option Nat
  | 0 => none
  | i + 1 => if s.getD (i + 1) 'A' = ' ' then some (i + 1) else findSpace s i

/-- The wrapping loop of `wrapParagraph` (main.go 1748-1770), parameterized by
`w1 = width - 1`, so the wrap width is `w1 + 1`: a positive width makes the
hard-split branch strictly shrink the input (`wrapText` never calls with a
width below 1, replacing non-positive widths by 80).  Each step emits the
text up to the break: the whole remainder if it fits, a hard-split prefix of
exactly the width when no word-break space exists, or the prefix before the
latest word-break space at or before the width — consuming that space. -/
def wrapLoop (w1 : Nat) (s : List Char) : List (List Char) :=
  if h0 : s = [] then []
  else if s.length ≤ w1 + 1 then [s]
  else
    match findSpace s (w1 + 1) with
    | none => s.take (w1 + 1) :: wrapLoop w1 (s.drop (w1 + 1))
    | some cut => s.take cut :: wrapLoop w1 (s.drop (cut + 1))
  termination_by s.length
  decreasing_by
  · have : 0 < s.length := List.length_pos.mpr h0
    rw [List.length_drop]
    omega
  · have : 0 < s.length := List.length_pos.mpr h0
    rw [List.length_drop]
    omega

/-- `wrapParagraph` (main.go 1742-1772): a paragraph that fits is returned
whole (including the empty paragraph); otherwise the wrapping loop runs. -/
def wrapParagraph (s : List Char) (width : Nat) : List (List Char) :=
  if s.length ≤ width then [s] else wrapLoop (width - 1) s

/-- `strings.Split(s, "\n")`: cut `s` at every newline.  Always nonempty. -/
def splitNL : List Char → List (List Char)
  | [] => [[]]
  | c :: cs =>
    if c = '\n' then [] :: splitNL cs
    else
      match splitNL cs with
      | [] => [[c]]
      | p :: ps => (c :: p) :: ps

/-- `wrapText` (main.go 1727-1739): non-positive widths are replaced by 80,
then each newline-separated paragraph is wrapped independently and the
resulting line lists concatenated. -/
def wrapText (s : List Char) (width : Int) : List (List Char) :=
  (splitNL s).flatMap
    (fun para => wrapParagraph para (if width ≤ 0 then 80 else width.toNat))

/-- Specification-side inverse of `splitNL`: re-join paragraphs with the
newlines the split removed. -/
def joinNL : List (List Char) → List Char
  | [] => []
  | [p] => p
  | p :: q :: qs => p ++ '\n' :: joinNL (q :: qs)

/-- The reconstruction relation of the no-character-loss property:
`Rejoin ls s` holds when `s` is recovered from the wrapped lines `ls` by
re-inserting, at each point where wrapping consumed or removed a character,
exactly what stood in the original text: between consecutive lines either
nothing (hard split), one consumed word-break space, one newline the body
contained, or a word-break space consumed at a paragraph's very end followed
by the paragraph-separating newline; after the final line, a word-break
space consumed at the very end of the text. -/
inductive Rejoin : List (List Char) → List Char → Prop where
  | single (l : List Char) : Rejoin [l] l
  | singleSpace (l : List Char) : Rejoin [l] (l ++ [' '])
  | direct {ls s} (l : List Char) : Rejoin ls s → Rejoin (l :: ls) (l ++ s)
  | space {ls s} (l : List Char) : Rejoin ls s → Rejoin (l :: ls) (l ++ ' ' :: s)
  | newline {ls s} (l : List Char) : Rejoin ls s → Rejoin (l :: ls) (l ++ '\n' :: s)
  | spaceNewline {ls s} (l : List Char) :
      Rejoin ls s → Rejoin (l :: ls) (l ++ ' ' :: '\n' :: s)

/-! ### Snapshot builder (internal/snapshot/snapshot.go) -/

/-- The store interface consumed by `Build` (external collaborator, §6:
read-only queries).  Fallible reads are `Except`; `MaxEventID` and
`CountEvents` return plain values in the Go source (no error branch at the
call sites in `Build`). -/
structure Store where
  listAgents : Except String (List Agent)
  maxEventID : Int
  listEventsSinceID : Int → Int → Except String (List Event)
  listLocks : Except String (List Lock)
  getActivePointstamps : Except String (List Pointstamp)
  countEvents : Int

/-- `eventLimit` (snapshot.go line 45). -/
def eventLimit : Int := 500

/-- `snapshot.Build` (snapshot.go 37-97), parameterized over the external
frontier computations and the current wall-clock instant `now` (seconds):
read all agents; anchor the event fetch at `maxEventID - 500`, clamped at 0,
with limit 500; read locks and active pointstamps; compute the frontier and
per-agent status; count active vs. stale agents with the 10-minute (600 s)
staleness threshold; and take the exact total event count from the direct
count query, not from the maximum event id.  Any failed read aborts the
whole build. -/
def Build (computeFrontier : List Pointstamp → List Pointstamp)
    (computeFrontierStatus :
      String → Timestamp → List Pointstamp → FrontierStatus)
    (now : Int) (s : Store) : Except String DataSnapshot := do
  let agents ← s.listAgents
  let sinceID0 := s.maxEventID - eventLimit
  let sinceID := if sinceID0 < 0 then 0 else sinceID0
  let events ← s.listEventsSinceID sinceID eventLimit
  let locks ← s.listLocks
  let active ← s.getActivePointstamps
  pure
    { agents := agents
      events := events
      locks := locks
      frontier := computeFrontier active
      frontierStatus := agents.map fun ag =>
        (ag.id, computeFrontierStatus ag.id ⟨ag.epoch, ag.round⟩ active)
      activeAgents := (agents.filter fun ag => now - ag.lastSeen ≤ 600).length
      staleAgents := (agents.filter fun ag => 600 < now - ag.lastSeen).length
      totalEvents := s.countEvents
      activeLocks := locks.length
      builtAt := now }

/-! ### Change watcher (internal/datasource/watch.go) -/

/-- File-system operation kinds distinguished by the watcher's filter. -/
inductive FsOp where
  | write
  | create
  | otherOp
  deriving DecidableEq, Repr

/-- The basename filter of `Watcher.loop` (watch.go 67-73): only the primary
database file and its "-wal" / "-shm" side files are significant. -/
def relevantBase (dbBase : String) (base : String) : Bool :=
  base == dbBase || base == dbBase ++ "-wal" || base == dbBase ++ "-shm"

/-- An input to the watcher loop: a file-system notification (basename and
op), the debounce timer firing, or the consumer draining the channel. -/
inductive WatcherAct where
  | notify (base : String) (op : FsOp)
  | timerFire
  | consume
  deriving DecidableEq, Repr

/-- Watcher state: whether the single resettable debounce timer is armed,
and how many signals sit in the output channel. -/
structure WatcherState where
  timerArmed : Bool
  chan : Nat
  deriving DecidableEq, Repr

/-- One step of the watcher loop (watch.go 57-93), with the 100 ms debounce
delay abstracted into the explicit `timerFire` action: a relevant
write-or-create notification (re)arms the single debounce timer
(`timer.Stop(); timer = time.AfterFunc(...)`); any other notification is
skipped; the timer firing, when armed, performs the non-blocking send
(`select { case w.onChange <- struct{}{}: default: }`) — adding one signal
only when the channel is empty; the consumer removes one pending signal. -/
def watcherStep (dbBase : String) (st : WatcherState) :
    WatcherAct → WatcherState
  | WatcherAct.notify base op =>
    if relevantBase dbBase base &&
        (op == FsOp.write || op == FsOp.create) then
      { st with timerArmed := true }
    else st
  | WatcherAct.timerFire =>
    if st.timerArmed then
      { timerArmed := false, chan := if st.chan = 0 then 1 else st.chan }
    else st
  | WatcherAct.consume =>
    if 0 < st.chan then { st with chan := st.chan - 1 } else st

/-- Run the watcher loop over a sequence of inputs. -/
def watcherRun (dbBase : String) (st : WatcherState)
    (acts : List WatcherAct) : WatcherState :=
  acts.foldl (watcherStep dbBase) st

/-- Whether an action is a notification (as opposed to a timer fire or a
consumer read) — a burst within one debounce window consists of
notifications only. -/
def isNotify : WatcherAct → Bool
  | WatcherAct.notify _ _ => true
  | _ => false

/-! ### Agent-detail rendering (main.go 1463-1615) -/

/-- `truncate` (main.go 1774-1779): cut `s` to its first `n` bytes and append
an ellipsis when it is longer than `n`. -/
def truncate (s : List Char) (n : Nat) : List Char :=
  if s.length ≤ n then s else s.take n ++ ['.', '.', '.']

/-- The "Messages Sent" entries of the Agent-Detail view (main.go
1536-1554): the events are scanned newest-first keeping at most 15
message-kind events sent by the agent (the Go loop
`for i := len-1; i >= 0 && sentCount < 15; i--` is reverse order, filter,
take 15); each entry shows timestamp, target and the body cut inline at 80
bytes plus "..." — the body is never word-wrapped here. -/
def sentEntries (events : List Event) (agentID : String) :
    List (Int × String × List Char) :=
  ((events.reverse.filter fun e =>
      e.kind == EventKind.msg && e.agentID == agentID).take 15).map
    fun e =>
      (e.lamportTS, e.target,
        if 80 < e.body.length then e.body.take 80 ++ ['.', '.', '.']
        else e.body)

/-- The "Messages Received" entries (main.go 1561-1579): newest-first, at
most 15 message-kind events targeting the agent, the body cut inline at 80
bytes plus "...". -/
def recvEntries (events : List Event) (agentID : String) :
    List (Int × String × List Char) :=
  ((events.reverse.filter fun e =>
      e.kind == EventKind.msg && e.target == agentID).take 15).map
    fun e =>
      (e.lamportTS, e.agentID,
        if 80 < e.body.length then e.body.take 80 ++ ['.', '.', '.']
        else e.body)

/-- The "Recent Activity" entries (main.go 1586-1612): newest-first, at most
20 events by the agent; only a message entry shows body text, via
`truncate(body, 60)` (other kinds show their target or progress marker). -/
def activityEntries (events : List Event) (agentID : String) :
    List (Int × EventKind × List Char) :=
  ((events.reverse.filter fun e => e.agentID == agentID).take 20).map
    fun e =>
      (e.lamportTS, e.kind,
        match e.kind with
        | EventKind.msg => truncate e.body 60
        | _ => [])

/-- A message event used to exhibit diagram-cell overwriting: same agent and
clock as `cexHeartbeat`, which follows it in input order. -/
def cexMsg : Event :=
  { id := 10, agentID := "bob", lamportTS := 1, kind := EventKind.msg,
    target := "alice", body := ['x'], epoch := 0, round := 0 }

/-- A heartbeat event by the same agent at the same clock value as `cexMsg`. -/
def cexHeartbeat : Event :=
  { id := 11, agentID := "bob", lamportTS := 1, kind := EventKind.progress,
    target := "", body := [], epoch := 0, round := 1 }

/-- The agent owning both counterexample events. -/
def cexAgent : Agent :=
  { id := "bob", clock := 1, epoch := 0, round := 1, lastSeen := 0 }

/-- A small concrete event list used by witnesses: a message from alice to
bob and a lock request by bob share clock 1; a later heartbeat by alice has
clock 2.  Ids are distinct and clocks ascend, as the store guarantees. -/
def witnessEvents : List Event :=
  [ { id := 1, agentID := "alice", lamportTS := 1, kind := EventKind.msg,
      target := "bob", body := ['h', 'i'], epoch := 0, round := 0 },
    { id := 2, agentID := "bob", lamportTS := 1, kind := EventKind.lockReq,
      target := "res", body := [], epoch := 0, round := 0 },
    { id := 3, agentID := "alice", lamportTS := 2, kind := EventKind.progress,
      target := "", body := [], epoch := 1, round := 2 } ]

/-! ### Space-time diagram layout (main.go 1206-1304) -/

/-- `diagramCell`: one marked event in the diagram grid. -/
structure DiagramCell where
  event : Event
  label : String
  deriving DecidableEq, Repr

/-- `diagramMsg`: a message arrow. -/
structure DiagramMsg where
  fromAgent : String
  toAgent : String
  body : List Char
  deriving DecidableEq, Repr

/-- `diagramRow`: one Lamport-timestamp row.  `cells` models the Go
`map[string]diagramCell` (lookup by agent id; assignment overwrites). -/
structure DiagramRow where
  lamportTS : Int
  cells : String → Option DiagramCell
  messages : List DiagramMsg

/-- The kind-coded single-character cell marker (main.go 1250-1262). -/
def cellLabel : EventKind → String
  | EventKind.msg => ">"
  | EventKind.lockReq => "L"
  | EventKind.lockRel => "U"
  | EventKind.progress => "*"
  | EventKind.other _ => "?"

/-- Record one event in its row (main.go 1249-1273): set — overwriting — the
agent's cell, and for a message with a nonempty target append an arrow. -/
def applyEvent (row : DiagramRow) (e : Event) : DiagramRow :=
  { lamportTS := row.lamportTS
    cells := fun a =>
      if a = e.agentID then some ⟨e, cellLabel e.kind⟩ else row.cells a
    messages :=
      if e.kind = EventKind.msg ∧ e.target ≠ "" then
        row.messages ++ [⟨e.agentID, e.target, e.body⟩]
      else
        row.messages }

/-- The event-collection loop of `buildDiagramData` (main.go 1237-1274):
`rowMap` is the timestamp-indexed row map, `timestamps` collects distinct
timestamps in first-seen order; a timestamp absent from the map gets a fresh
empty row. -/
def diagramLoop (rowMap : Int → Option DiagramRow) (timestamps : List Int) :
    List Event → (Int → Option DiagramRow) × List Int
  | [] => (rowMap, timestamps)
  | e :: es =>
    match rowMap e.lamportTS with
    | some row =>
      diagramLoop
        (fun ts => if ts = e.lamportTS then some (applyEvent row e) else rowMap ts)
        timestamps es
    | none =>
      diagramLoop
        (fun ts =>
          if ts = e.lamportTS then
            some (applyEvent ⟨e.lamportTS, fun _ => none, []⟩ e)
          else rowMap ts)
        (timestamps ++ [e.lamportTS]) es

/-- The insertion step of `sortInt64s`: the Go inner loop bubbles the new
element left through the already-sorted prefix while it is strictly smaller
than its predecessor, i.e. it inserts the element into the sorted prefix just
after any equal elements. -/
def sortInsert (x : Int) : List Int → List Int
  | [] => [x]
  | y :: ys => if x < y then x :: y :: ys else y :: sortInsert x ys

/-- `sortInt64s` (main.go 1288-1294): in-place insertion sort over `int64`,
modelled as the equivalent fold of sorted insertions. -/
def sortInt64s (l : List Int) : List Int :=
  l.foldl (fun acc x => sortInsert x acc) []

/-- `buildDiagramData` (main.go 1226-1285): agent columns in registration
order; one row per distinct Lamport timestamp, rows sorted ascending.  Go
dereferences `rowMap[ts]` for each collected timestamp; every collected
timestamp is in the map (see `diagramLoop_domain`), so the `filterMap`
lookup drops nothing. -/
def buildDiagramData (agents : List Agent) (events : List Event) :
    List String × List DiagramRow :=
  let acc := diagramLoop (fun _ => none) [] events
  (agents.map Agent.id, (sortInt64s acc.2).filterMap acc.1)

/-- Observation of the diagram grid: the cell for `agent` in the row of
timestamp `ts`, if that row exists. -/
def cellAt (rowMap : Int → Option DiagramRow) (ts : Int) (agent : String) :
    Option DiagramCell :=
  (rowMap ts).bind fun r => r.cells agent

/-! ### Theorems -/

/-- C1: After the navigation state machine processes a snapshot-ready message
carrying a successfully built snapshot (any refresh, including one that
shrinks or empties the agent list), the new snapshot is installed and the
agent-selection index satisfies `0 <= index < agentCount` of the now-current
snapshot, or `index == 0` when `agentCount == 0`. -/
theorem selectedAgent_clamped_after_refresh
    (st : NavState) (s : DataSnapshot) (h : 0 ≤ st.selectedAgent) :
    (processSnapshotReady st (some s)).snap = s ∧
      selInvariant (processSnapshotReady st (some s)).selectedAgent
        (processSnapshotReady st (some s)).snap.agents.length := by
  simp only [processSnapshotReady, selInvariant]
  split_ifs with h0 h1
  · exact ⟨rfl, Or.inl ⟨h0, rfl⟩⟩
  · refine ⟨rfl, Or.inr ⟨?_, ?_⟩⟩ <;> dsimp only <;> omega
  · refine ⟨rfl, Or.inr ⟨?_, ?_⟩⟩ <;> dsimp only <;> omega

/-- Witness for C1: a concrete refresh from a state with cursor 5 to a
one-agent snapshot lands the cursor on index 0. -/
theorem selectedAgent_clamped_after_refresh_witness :
    (0 : Int) ≤ 5 ∧
      ((processSnapshotReady ⟨5, ⟨[], [], [], [], [], 0, 0, 0, 0, 0⟩⟩
          (some ⟨[⟨"alice", 1, 0, 0, 0⟩], [], [], [], [], 1, 0, 0, 0, 0⟩)).snap =
          ⟨[⟨"alice", 1, 0, 0, 0⟩], [], [], [], [], 1, 0, 0, 0, 0⟩ ∧
        selInvariant
          (processSnapshotReady ⟨5, ⟨[], [], [], [], [], 0, 0, 0, 0, 0⟩⟩
            (some ⟨[⟨"alice", 1, 0, 0, 0⟩], [], [], [], [], 1, 0, 0, 0, 0⟩)).selectedAgent
          (processSnapshotReady ⟨5, ⟨[], [], [], [], [], 0, 0, 0, 0, 0⟩⟩
            (some ⟨[⟨"alice", 1, 0, 0, 0⟩], [], [], [], [], 1, 0, 0, 0, 0⟩)).snap.agents.length) :=
  ⟨by norm_num,
    selectedAgent_clamped_after_refresh
      ⟨5, ⟨[], [], [], [], [], 0, 0, 0, 0, 0⟩⟩
      ⟨[⟨"alice", 1, 0, 0, 0⟩], [], [], [], [], 1, 0, 0, 0, 0⟩ (by norm_num)⟩

/-- C3: `isConcurrentGroup` flags a group concurrent iff it has at least two
events and events from at least two distinct agent ids; singleton groups and
single-agent groups are never flagged. -/
theorem isConcurrentGroup_iff (g : TimelineGroup) :
    isConcurrentGroup g = true ↔
      2 ≤ g.events.length ∧
        ∃ e₁ ∈ g.events, ∃ e₂ ∈ g.events, e₁.agentID ≠ e₂.agentID := by
  obtain ⟨ts, evs⟩ := g
  match evs with
  | [] => simp [isConcurrentGroup]
  | [e0] => simp [isConcurrentGroup]
  | e0 :: e1 :: rs =>
    have hred : isConcurrentGroup ⟨ts, e0 :: e1 :: rs⟩
        = (e1 :: rs).any (fun e => e.agentID != e0.agentID) := by
      rw [isConcurrentGroup]
      rw [if_neg (by simp)]
    rw [hred]
    dsimp only
    simp only [List.any_eq_true, bne_iff_ne, List.length_cons]
    constructor
    · rintro ⟨e, he, hne⟩
      exact ⟨by omega, e, List.mem_cons_of_mem _ he, e0, List.mem_cons_self _ _,
        hne⟩
    · rintro ⟨-, x, hx, y, hy, hxy⟩
      by_cases hx0 : x.agentID = e0.agentID
      · have hy0 : y.agentID ≠ e0.agentID := fun hc => hxy (hx0.trans hc.symm)
        have hy' : y ∈ e1 :: rs := by
          rcases List.mem_cons.mp hy with hcase | hcase
          · exact absurd (by rw [hcase]) hy0
          · exact hcase
        exact ⟨y, hy', hy0⟩
      · have hx' : x ∈ e1 :: rs := by
          rcases List.mem_cons.mp hx with hcase | hcase
          · exact absurd (by rw [hcase]) hx0
          · exact hcase
        exact ⟨x, hx', hx0⟩

/-- Flattening the output of `groupLoop` yields the pending group's members
followed by the unprocessed events, for any input. -/
theorem groupLoop_flatten (current : TimelineGroup) (rest : List Event) :
    (groupLoop current rest).flatMap TimelineGroup.events = current.events ++ rest := by
  induction rest generalizing current with
  | nil => simp [groupLoop]
  | cons e es ih =>
    rw [groupLoop]
    split_ifs with hne
    · rw [List.flatMap_cons, ih]
      simp
    · rw [ih]
      simp

/-- Every group emitted by `groupLoop` carries only events with its own
timestamp, provided the pending group already does. -/
theorem groupLoop_member_ts (current : TimelineGroup) (rest : List Event)
    (hcur : ∀ e ∈ current.events, e.lamportTS = current.lamportTS) :
    ∀ g ∈ groupLoop current rest, ∀ e ∈ g.events, e.lamportTS = g.lamportTS := by
  induction rest generalizing current with
  | nil =>
    intro g hg
    rw [groupLoop] at hg
    simp only [List.mem_singleton] at hg
    subst hg
    exact hcur
  | cons e es ih =>
    intro g hg
    rw [groupLoop] at hg
    split_ifs at hg with hne
    · rcases List.mem_cons.mp hg with rfl | hg'
      · exact hcur
      · refine ih ⟨e.lamportTS, [e]⟩ ?_ g hg'
        intro e' he'
        simp only [List.mem_singleton] at he'
        subst he'
        rfl
    · refine ih { current with events := current.events ++ [e] } ?_ g hg
      intro e' he'
      rcases List.mem_append.mp he' with h | h
      · exact hcur e' h
      · simp only [List.mem_singleton] at h
        subst h
        push_neg at hne
        exact hne

/-- Every group emitted by `groupLoop` is nonempty, provided the pending group
already is. -/
theorem groupLoop_ne_nil (current : TimelineGroup) (rest : List Event)
    (hcur : current.events ≠ []) :
    ∀ g ∈ groupLoop current rest, g.events ≠ [] := by
  induction rest generalizing current with
  | nil =>
    intro g hg
    rw [groupLoop] at hg
    simp only [List.mem_singleton] at hg
    subst hg
    exact hcur
  | cons e es ih =>
    intro g hg
    rw [groupLoop] at hg
    split_ifs at hg with hne
    · rcases List.mem_cons.mp hg with rfl | hg'
      · exact hcur
      · exact ih ⟨e.lamportTS, [e]⟩ (by simp) g hg'
    · exact ih { current with events := current.events ++ [e] } (by simp) g hg

/-- The first group emitted by `groupLoop` carries the pending group's
timestamp. -/
theorem groupLoop_head_ts (current : TimelineGroup) (rest : List Event) :
    ∀ g gs, groupLoop current rest = g :: gs → g.lamportTS = current.lamportTS := by
  induction rest generalizing current with
  | nil =>
    intro g gs h
    rw [groupLoop] at h
    cases h
    rfl
  | cons e es ih =>
    intro g gs h
    rw [groupLoop] at h
    split_ifs at h with hne
    · cases h
      rfl
    · exact ih { current with events := current.events ++ [e] } g gs h

/-- The timestamps of the groups emitted by `groupLoop` are strictly
increasing when the remaining events are sorted ascending and dominate the
pending group's timestamp. -/
theorem groupLoop_chain' (current : TimelineGroup) (rest : List Event)
    (hsorted : List.Pairwise (fun a b => a.lamportTS ≤ b.lamportTS) rest)
    (hge : ∀ e ∈ rest, current.lamportTS ≤ e.lamportTS) :
    List.Chain' (fun g₁ g₂ => g₁.lamportTS < g₂.lamportTS) (groupLoop current rest) := by
  induction rest generalizing current with
  | nil =>
    rw [groupLoop]
    simp
  | cons e es ih =>
    rw [groupLoop]
    rcases List.pairwise_cons.mp hsorted with ⟨hdom, hsorted'⟩
    split_ifs with hne
    · have hlt : current.lamportTS < e.lamportTS :=
        lt_of_le_of_ne (hge e (List.mem_cons_self _ _)) (Ne.symm hne)
      have htail := ih ⟨e.lamportTS, [e]⟩ hsorted' (fun e' he' => hdom e' he')
      refine List.chain'_cons'.mpr ⟨?_, htail⟩
      intro g hg
      rcases hhd : groupLoop ⟨e.lamportTS, [e]⟩ es with _ | ⟨g', gs'⟩
      · simp [hhd] at hg
      · rw [hhd] at hg
        simp only [List.head?_cons, Option.mem_def, Option.some_inj] at hg
        have hts := groupLoop_head_ts ⟨e.lamportTS, [e]⟩ es g' gs' hhd
        rw [← hg, hts]
        exact hlt
    · push_neg at hne
      refine ih { current with events := current.events ++ [e] } hsorted' ?_
      intro e' he'
      exact le_trans (hge e (List.mem_cons_self _ _)) (hdom e' he')

/-- C2: for every event list sorted ascending by Lamport clock,
`groupByLamport` partitions it into maximal runs of an identical clock value:
flattening reproduces the input exactly, every group is a nonempty run of its
own clock value, and consecutive groups carry strictly increasing clock
values. -/
theorem groupByLamport_partition (events : List Event)
    (hsorted : List.Pairwise (fun a b => a.lamportTS ≤ b.lamportTS) events) :
    (groupByLamport events).flatMap TimelineGroup.events = events ∧
      (∀ g ∈ groupByLamport events,
        g.events ≠ [] ∧ ∀ e ∈ g.events, e.lamportTS = g.lamportTS) ∧
      List.Pairwise (fun g₁ g₂ => g₁.lamportTS < g₂.lamportTS)
        (groupByLamport events) := by
  match events with
  | [] => simp [groupByLamport]
  | e0 :: es =>
    have hflat := groupLoop_flatten ⟨e0.lamportTS, []⟩ (e0 :: es)
    have hmem := groupLoop_member_ts ⟨e0.lamportTS, []⟩ (e0 :: es) (by simp)
    have hge : ∀ e ∈ e0 :: es,
        (⟨e0.lamportTS, []⟩ : TimelineGroup).lamportTS ≤ e.lamportTS := by
      intro e he
      rcases List.mem_cons.mp he with rfl | he'
      · exact le_refl _
      · exact (List.pairwise_cons.mp hsorted).1 e he'
    have hchain := groupLoop_chain' ⟨e0.lamportTS, []⟩ (e0 :: es) hsorted hge
    have hne : ∀ g ∈ groupByLamport (e0 :: es), g.events ≠ [] := by
      intro g hg
      simp only [groupByLamport] at hg
      rw [groupLoop, if_neg (by simp)] at hg
      exact groupLoop_ne_nil ⟨e0.lamportTS, [e0]⟩ es (by simp) g
        (by simpa using hg)
    refine ⟨by simpa [groupByLamport] using hflat, ?_, ?_⟩
    · intro g hg
      exact ⟨hne g hg, hmem g (by simpa [groupByLamport] using hg)⟩
    · haveI : IsTrans TimelineGroup (fun g₁ g₂ => g₁.lamportTS < g₂.lamportTS) :=
        ⟨fun _ _ _ hab hbc => lt_trans hab hbc⟩
      exact List.chain'_iff_pairwise.mp (by simpa [groupByLamport] using hchain)

/-- Witness for C2 at a concrete sorted event list with a two-event run. -/
theorem groupByLamport_partition_witness :
    List.Pairwise (fun a b => a.lamportTS ≤ b.lamportTS) witnessEvents ∧
      ((groupByLamport witnessEvents).flatMap TimelineGroup.events = witnessEvents ∧
        (∀ g ∈ groupByLamport witnessEvents,
          g.events ≠ [] ∧ ∀ e ∈ g.events, e.lamportTS = g.lamportTS) ∧
        List.Pairwise (fun g₁ g₂ => g₁.lamportTS < g₂.lamportTS)
          (groupByLamport witnessEvents)) :=
  ⟨by decide, groupByLamport_partition witnessEvents (by decide)⟩

/-- Membership in the fold that `buildCausalSet` performs. -/
theorem mem_causalFold (events : List Event) (s : Finset Int) (x : Int) :
    (x ∈ events.foldl
        (fun causal e =>
          if e.kind = EventKind.msg then insert e.id causal else causal) s) ↔
      x ∈ s ∨ ∃ e ∈ events, e.id = x ∧ e.kind = EventKind.msg := by
  induction events generalizing s with
  | nil => simp
  | cons e es ih =>
    rw [List.foldl_cons, ih]
    split_ifs with hk
    · simp only [Finset.mem_insert, List.mem_cons]
      constructor
      · rintro (⟨rfl | hx⟩ | ⟨e', he', hid, hmsg⟩)
        · exact Or.inr ⟨e, Or.inl rfl, rfl, hk⟩
        · exact Or.inl hx
        · exact Or.inr ⟨e', Or.inr he', hid, hmsg⟩
      · rintro (hx | ⟨e', (rfl | he'), hid, hmsg⟩)
        · exact Or.inl (Or.inr hx)
        · exact Or.inl (Or.inl hid.symm)
        · exact Or.inr ⟨e', he', hid, hmsg⟩
    · simp only [List.mem_cons]
      constructor
      · rintro (hx | ⟨e', he', hid, hmsg⟩)
        · exact Or.inl hx
        · exact Or.inr ⟨e', Or.inr he', hid, hmsg⟩
      · rintro (hx | ⟨e', (rfl | he'), hid, hmsg⟩)
        · exact Or.inl hx
        · exact absurd hmsg hk
        · exact Or.inr ⟨e', he', hid, hmsg⟩

/-- C4: with distinct event ids (store-assigned, strictly increasing),
`buildCausalSet` marks an event as a causal witness iff its kind is message;
lock-request, lock-release, heartbeat and other kinds are never marked. -/
theorem buildCausalSet_iff_msg (events : List Event)
    (hnodup : (events.map Event.id).Nodup) :
    ∀ e ∈ events, (e.id ∈ buildCausalSet events ↔ e.kind = EventKind.msg) := by
  intro e he
  unfold buildCausalSet
  rw [mem_causalFold]
  simp only [Finset.not_mem_empty, false_or]
  constructor
  · rintro ⟨e', he', hid, hmsg⟩
    have : e' = e := List.inj_on_of_nodup_map hnodup he' he hid
    rw [← this]
    exact hmsg
  · intro hmsg
    exact ⟨e, he, rfl, hmsg⟩

/-- Witness for C4 at a concrete event list: a message, a lock request and a
heartbeat with distinct ids. -/
theorem buildCausalSet_iff_msg_witness :
    (witnessEvents.map Event.id).Nodup ∧
      ∀ e ∈ witnessEvents,
        (e.id ∈ buildCausalSet witnessEvents ↔ e.kind = EventKind.msg) :=
  ⟨by decide, buildCausalSet_iff_msg witnessEvents (by decide)⟩

/-- `findSpace` only returns indices in `[1, bound]` holding a space. -/
theorem findSpace_some {s : List Char} {bound cut : Nat}
    (h : findSpace s bound = some cut) :
    s.getD cut 'A' = ' ' ∧ 1 ≤ cut ∧ cut ≤ bound := by
  induction bound with
  | zero => simp [findSpace] at h
  | succ i ih =>
    rw [findSpace] at h
    split_ifs at h with hsp
    · cases h
      exact ⟨hsp, by omega, le_refl _⟩
    · obtain ⟨h1, h2, h3⟩ := ih h
      exact ⟨h1, h2, by omega⟩

/-- `wrapLoop` emits at least one line on nonempty input. -/
theorem wrapLoop_ne_nil {w1 : Nat} {s : List Char} (h : s ≠ []) :
    wrapLoop w1 s ≠ [] := by
  rw [wrapLoop]
  rw [dif_neg h]
  split_ifs with h1
  · simp
  · cases hf : findSpace s (w1 + 1) <;> simp

/-- Core of the no-character-loss property: every remainder the wrapping loop
processes is recovered from the lines it emits. -/
theorem wrapLoop_rejoin (w1 n : Nat) (s : List Char) (hle : s.length ≤ n)
    (hne : s ≠ []) : Rejoin (wrapLoop w1 s) s := by
  induction n generalizing s with
  | zero => exact absurd (List.length_eq_zero.mp (Nat.le_zero.mp hle)) hne
  | succ n ih =>
    rw [wrapLoop]
    rw [dif_neg hne]
    split_ifs with hfit
    · exact Rejoin.single s
    · push_neg at hfit
      cases hf : findSpace s (w1 + 1) with
      | none =>
        dsimp only
        have hdlen : 0 < (s.drop (w1 + 1)).length := by
          rw [List.length_drop]
          omega
        have hrec := ih (s.drop (w1 + 1))
          (by rw [List.length_drop]; omega) (List.length_pos.mp hdlen)
        have h2 := Rejoin.direct (s.take (w1 + 1)) hrec
        rwa [List.take_append_drop] at h2
      | some cut =>
        dsimp only
        obtain ⟨hsp, hc1, hc2⟩ := findSpace_some hf
        have hcutlt : cut < s.length := by omega
        have hget : s[cut] = ' ' := by
          rw [← List.getD_eq_getElem s 'A' hcutlt]
          exact hsp
        have hdecomp : s.take cut ++ ' ' :: s.drop (cut + 1) = s := by
          conv_rhs => rw [← List.take_append_drop cut s]
          rw [List.drop_eq_getElem_cons hcutlt, hget]
        by_cases hdrop : s.drop (cut + 1) = []
        · have hwnil : wrapLoop w1 ([] : List Char) = [] := by
            rw [wrapLoop]
            simp
          have hs : s.take cut ++ [' '] = s := by
            rw [hdrop] at hdecomp
            exact hdecomp
          have hsg : Rejoin [s.take cut] (s.take cut ++ [' ']) :=
            Rejoin.singleSpace _
          rw [hs] at hsg
          rw [hdrop, hwnil]
          exact hsg
        · have hrec := ih (s.drop (cut + 1))
            (by rw [List.length_drop]; omega) hdrop
          have h2 := Rejoin.space (s.take cut) hrec
          rwa [hdecomp] at h2

/-- Every paragraph is recovered from its wrapped lines. -/
theorem wrapParagraph_rejoin (s : List Char) (width : Nat) :
    Rejoin (wrapParagraph s width) s := by
  rw [wrapParagraph]
  split_ifs with hfit
  · exact Rejoin.single s
  · refine wrapLoop_rejoin (width - 1) s.length s (le_refl _) ?_
    intro hc
    rw [hc] at hfit
    simp at hfit

/-- `wrapParagraph` emits at least one line. -/
theorem wrapParagraph_ne_nil (s : List Char) (width : Nat) :
    wrapParagraph s width ≠ [] := by
  rw [wrapParagraph]
  split_ifs with hfit
  · simp
  · refine wrapLoop_ne_nil ?_
    intro hc
    rw [hc] at hfit
    simp at hfit

/-- `splitNL` always yields at least one paragraph. -/
theorem splitNL_ne_nil (s : List Char) : splitNL s ≠ [] := by
  cases s with
  | nil => simp [splitNL]
  | cons c cs =>
    rw [splitNL]
    split_ifs
    · simp
    · cases h : splitNL cs <;> simp

/-- Splitting on newlines and re-joining with newlines is the identity. -/
theorem joinNL_splitNL (s : List Char) : joinNL (splitNL s) = s := by
  induction s with
  | nil => rfl
  | cons c cs ih =>
    rw [splitNL]
    split_ifs with hnl
    · subst hnl
      cases hsp : splitNL cs with
      | nil => exact absurd hsp (splitNL_ne_nil cs)
      | cons p ps =>
        rw [joinNL]
        rw [← hsp, ih]
        rfl
    · cases hsp : splitNL cs with
      | nil => exact absurd hsp (splitNL_ne_nil cs)
      | cons p ps =>
        rw [hsp] at ih
        cases ps with
        | nil =>
          rw [joinNL]
          rw [joinNL] at ih
          rw [ih]
        | cons q qs =>
          rw [joinNL]
          rw [joinNL] at ih
          rw [List.cons_append, ih]

/-- Reconstructions compose across a paragraph boundary: the removed newline
is re-inserted between the two line blocks. -/
theorem rejoin_append {la lb : List (List Char)} {a b : List Char}
    (ha : Rejoin la a) (hb : Rejoin lb b) :
    Rejoin (la ++ lb) (a ++ '\n' :: b) := by
  induction ha with
  | single l => exact Rejoin.newline l hb
  | singleSpace l => simpa using Rejoin.spaceNewline l hb
  | direct l _ ih => simpa using Rejoin.direct l ih
  | space l _ ih => simpa using Rejoin.space l ih
  | newline l _ ih => simpa using Rejoin.newline l ih
  | spaceNewline l _ ih => simpa using Rejoin.spaceNewline l ih

/-- Wrapping each paragraph and concatenating reconstructs the newline-joined
text of all paragraphs. -/
theorem rejoin_flatMap (width : Nat) :
    ∀ paras : List (List Char), paras ≠ [] →
      Rejoin (paras.flatMap (fun p => wrapParagraph p width)) (joinNL paras) := by
  intro paras
  induction paras with
  | nil => intro h; exact absurd rfl h
  | cons p ps ih =>
    intro _
    cases ps with
    | nil => simpa [joinNL] using wrapParagraph_rejoin p width
    | cons q qs =>
      rw [joinNL, List.flatMap_cons]
      exact rejoin_append (wrapParagraph_rejoin p width) (ih (by simp))

/-- C5: for every body and positive width, word-wrapping never drops a
character — the original text is reproduced exactly from the wrapped lines by
re-inserting a single space wherever a word-break space was consumed and a
newline wherever the body contained one. -/
theorem wrapText_lossless (s : List Char) (width : Int) (hw : 0 < width) :
    Rejoin (wrapText s width) s := by
  have h := rejoin_flatMap (if width ≤ 0 then 80 else width.toNat)
    (splitNL s) (splitNL_ne_nil s)
  rw [joinNL_splitNL] at h
  exact h

/-- Combined invariant of the diagram collection loop: the map's domain is
exactly the collected timestamp list, every stored row carries its key as its
timestamp, the timestamp list stays duplicate-free, and it ends up holding
exactly the old timestamps plus the timestamps of the processed events. -/
theorem diagramLoop_inv (events : List Event) :
    ∀ (rowMap : Int → Option DiagramRow) (timestamps : List Int),
      (∀ ts, (rowMap ts).isSome ↔ ts ∈ timestamps) →
      (∀ ts r, rowMap ts = some r → r.lamportTS = ts) →
      timestamps.Nodup →
      (∀ ts, ((diagramLoop rowMap timestamps events).1 ts).isSome ↔
        ts ∈ (diagramLoop rowMap timestamps events).2) ∧
      (∀ ts r, (diagramLoop rowMap timestamps events).1 ts = some r →
        r.lamportTS = ts) ∧
      (diagramLoop rowMap timestamps events).2.Nodup ∧
      (∀ ts, ts ∈ (diagramLoop rowMap timestamps events).2 ↔
        (ts ∈ timestamps ∨ ∃ e ∈ events, e.lamportTS = ts)) := by
  induction events with
  | nil =>
    intro rowMap timestamps hdom hts hnd
    rw [diagramLoop]
    exact ⟨hdom, hts, hnd, fun ts => by simp⟩
  | cons e es ih =>
    intro rowMap timestamps hdom hts hnd
    rw [diagramLoop]
    cases hm : rowMap e.lamportTS with
    | some row =>
      dsimp only
      have hmem : e.lamportTS ∈ timestamps := (hdom _).mp (by rw [hm]; rfl)
      obtain ⟨ihdom, ihts, ihnd, ihtss⟩ :=
        ih (fun ts =>
            if ts = e.lamportTS then some (applyEvent row e) else rowMap ts)
          timestamps
          (by
            intro ts
            by_cases h : ts = e.lamportTS
            · subst h
              simpa using hmem
            · simpa [if_neg h] using hdom ts)
          (by
            intro ts r hr
            dsimp only at hr
            by_cases h : ts = e.lamportTS
            · subst h
              rw [if_pos rfl] at hr
              cases hr
              simpa [applyEvent] using hts _ _ hm
            · rw [if_neg h] at hr
              exact hts ts r hr)
          hnd
      refine ⟨ihdom, ihts, ihnd, ?_⟩
      intro ts
      rw [ihtss ts]
      constructor
      · rintro (h | ⟨e', he', hts'⟩)
        · exact Or.inl h
        · exact Or.inr ⟨e', List.mem_cons_of_mem _ he', hts'⟩
      · rintro (h | ⟨e', he', hts'⟩)
        · exact Or.inl h
        · rcases List.mem_cons.mp he' with rfl | he''
          · exact Or.inl (hts' ▸ hmem)
          · exact Or.inr ⟨e', he'', hts'⟩
    | none =>
      dsimp only
      have hnotmem : e.lamportTS ∉ timestamps := by
        intro hc
        have := (hdom _).mpr hc
        rw [hm] at this
        simp at this
      obtain ⟨ihdom, ihts, ihnd, ihtss⟩ :=
        ih (fun ts =>
            if ts = e.lamportTS then
              some (applyEvent ⟨e.lamportTS, fun _ => none, []⟩ e)
            else rowMap ts)
          (timestamps ++ [e.lamportTS])
          (by
            intro ts
            by_cases h : ts = e.lamportTS
            · subst h
              simp
            · simp only [if_neg h, List.mem_append, List.mem_singleton]
              rw [hdom ts]
              constructor
              · exact Or.inl
              · rintro (hl | hl)
                · exact hl
                · exact absurd hl h)
          (by
            intro ts r hr
            dsimp only at hr
            by_cases h : ts = e.lamportTS
            · subst h
              rw [if_pos rfl] at hr
              cases hr
              simp [applyEvent]
            · rw [if_neg h] at hr
              exact hts ts r hr)
          (by
            rw [List.nodup_append]
            exact ⟨hnd, List.nodup_singleton _,
              fun a ha hb => by
                rw [List.mem_singleton] at hb
                subst hb
                exact hnotmem ha⟩)
      refine ⟨ihdom, ihts, ihnd, ?_⟩
      intro ts
      rw [ihtss ts]
      constructor
      · rintro (h | ⟨e', he', hts'⟩)
        · rcases List.mem_append.mp h with h' | h'
          · exact Or.inl h'
          · rw [List.mem_singleton] at h'
            exact Or.inr ⟨e, List.mem_cons_self _ _, h'.symm⟩
        · exact Or.inr ⟨e', List.mem_cons_of_mem _ he', hts'⟩
      · rintro (h | ⟨e', he', hts'⟩)
        · exact Or.inl (List.mem_append_left _ h)
        · rcases List.mem_cons.mp he' with rfl | he''
          · refine Or.inl (List.mem_append_right _ ?_)
            rw [List.mem_singleton]
            exact hts'.symm
          · exact Or.inr ⟨e', he'', hts'⟩

/-- `sortInsert` permutes its input. -/
theorem sortInsert_perm (x : Int) (l : List Int) :
    (sortInsert x l).Perm (x :: l) := by
  induction l with
  | nil => exact List.Perm.refl _
  | cons y ys ih =>
    rw [sortInsert]
    split_ifs with h
    · exact List.Perm.refl _
    · exact (ih.cons y).trans (List.Perm.swap x y ys)

/-- `sortInsert` preserves sortedness. -/
theorem sortInsert_pairwise (x : Int) (l : List Int)
    (h : List.Pairwise (· ≤ ·) l) :
    List.Pairwise (· ≤ ·) (sortInsert x l) := by
  induction l with
  | nil => simp [sortInsert]
  | cons y ys ih =>
    rw [sortInsert]
    rcases List.pairwise_cons.mp h with ⟨hy, hys⟩
    split_ifs with hlt
    · refine List.pairwise_cons.mpr ⟨?_, h⟩
      intro z hz
      rcases List.mem_cons.mp hz with rfl | hz'
      · omega
      · exact le_trans (le_of_lt hlt) (hy z hz')
    · refine List.pairwise_cons.mpr ⟨?_, ih hys⟩
      intro z hz
      rcases List.mem_cons.mp ((sortInsert_perm x ys).mem_iff.mp hz) with rfl | hz'
      · omega
      · exact hy z hz'

/-- `sortInt64s` permutes its input. -/
theorem sortInt64s_perm (l : List Int) : (sortInt64s l).Perm l := by
  suffices h : ∀ acc : List Int,
      (l.foldl (fun acc x => sortInsert x acc) acc).Perm (acc ++ l) by
    simpa [sortInt64s] using h []
  induction l with
  | nil => intro acc; simp
  | cons x xs ih =>
    intro acc
    rw [List.foldl_cons]
    refine (ih (sortInsert x acc)).trans ?_
    refine (List.Perm.append_right xs (sortInsert_perm x acc)).trans ?_
    exact List.perm_middle.symm

/-- `sortInt64s` sorts ascending (non-strictly). -/
theorem sortInt64s_pairwise (l : List Int) :
    List.Pairwise (· ≤ ·) (sortInt64s l) := by
  suffices h : ∀ acc : List Int, List.Pairwise (· ≤ ·) acc →
      List.Pairwise (· ≤ ·) (l.foldl (fun acc x => sortInsert x acc) acc) by
    exact h [] (List.Pairwise.nil)
  induction l with
  | nil => intro acc hacc; simpa
  | cons x xs ih =>
    intro acc hacc
    rw [List.foldl_cons]
    exact ih (sortInsert x acc) (sortInsert_pairwise x acc hacc)

/-- Looking the sorted timestamps back up in the row map drops nothing and
reproduces the timestamps as the rows' timestamp fields. -/
theorem filterMap_rows_map (m : Int → Option DiagramRow) (ss : List Int)
    (hdom : ∀ ts ∈ ss, (m ts).isSome = true)
    (hts : ∀ ts r, m ts = some r → r.lamportTS = ts) :
    (ss.filterMap m).map DiagramRow.lamportTS = ss := by
  induction ss with
  | nil => rfl
  | cons a l ih =>
    rw [List.filterMap_cons]
    cases hm : m a with
    | none =>
      have := hdom a (List.mem_cons_self _ _)
      rw [hm] at this
      simp at this
    | some r =>
      dsimp only
      rw [List.map_cons, hts a r hm,
        ih (fun ts hts' => hdom ts (List.mem_cons_of_mem _ hts'))]

/-- C7: for every agent list and event list — in any insertion order —
`buildDiagramData` returns exactly one row per distinct Lamport-clock value
occurring in the events, with the rows' clock values strictly increasing. -/
theorem buildDiagramData_rows (agents : List Agent) (events : List Event) :
    List.Pairwise (fun r₁ r₂ => r₁.lamportTS < r₂.lamportTS)
      (buildDiagramData agents events).2 ∧
      ∀ ts : Int,
        (∃ r ∈ (buildDiagramData agents events).2, r.lamportTS = ts) ↔
          ∃ e ∈ events, e.lamportTS = ts := by
  obtain ⟨hdom, hts, hnd, htss⟩ :=
    diagramLoop_inv events (fun _ => none) [] (by simp) (by simp) List.nodup_nil
  set m := (diagramLoop (fun _ => none) [] events).1 with hm
  set tss := (diagramLoop (fun _ => none) [] events).2 with htssdef
  have hperm := sortInt64s_perm tss
  have hsortnd : (sortInt64s tss).Nodup := (hperm.symm.nodup hnd)
  have hsorted : List.Pairwise (· < ·) (sortInt64s tss) :=
    ((sortInt64s_pairwise tss).and hsortnd).imp
      (fun h => lt_of_le_of_ne h.1 h.2)
  have hdom' : ∀ ts ∈ sortInt64s tss, (m ts).isSome = true := by
    intro ts h
    exact (hdom ts).mpr (hperm.mem_iff.mp h)
  have hmapeq := filterMap_rows_map m (sortInt64s tss) hdom' hts
  constructor
  · have := List.pairwise_map.mp (hmapeq ▸ hsorted)
    simpa [buildDiagramData] using this
  · intro ts
    have hrows : (∃ r ∈ (sortInt64s tss).filterMap m, r.lamportTS = ts) ↔
        ts ∈ sortInt64s tss := by
      constructor
      · rintro ⟨r, hr, rfl⟩
        have : r.lamportTS ∈ ((sortInt64s tss).filterMap m).map
            DiagramRow.lamportTS := List.mem_map_of_mem _ hr
        rwa [hmapeq] at this
      · intro h
        have : ts ∈ ((sortInt64s tss).filterMap m).map DiagramRow.lamportTS := by
          rwa [hmapeq]
        obtain ⟨r, hr, hrts⟩ := List.mem_map.mp this
        exact ⟨r, hr, hrts⟩
    have : (∃ r ∈ (buildDiagramData agents events).2, r.lamportTS = ts) ↔
        ts ∈ sortInt64s tss := by
      simpa [buildDiagramData] using hrows
    rw [this, hperm.mem_iff, htss ts]
    simp

/-- What ends up in a diagram cell: the marker of the last input event with
the cell's timestamp and agent, if any; otherwise whatever the initial row
map already held there. -/
theorem diagramLoop_cellAt (events : List Event) :
    ∀ (rowMap : Int → Option DiagramRow) (timestamps : List Int) (ts : Int)
      (agent : String),
      cellAt (diagramLoop rowMap timestamps events).1 ts agent =
        match (events.filter fun e =>
            e.lamportTS == ts && e.agentID == agent).getLast? with
        | some e => some ⟨e, cellLabel e.kind⟩
        | none => cellAt rowMap ts agent := by
  induction events with
  | nil =>
    intro rowMap timestamps ts agent
    rw [diagramLoop]
    rfl
  | cons e es ih =>
    intro rowMap timestamps ts agent
    rw [diagramLoop]
    cases hm : rowMap e.lamportTS with
    | some row =>
      dsimp only
      rw [ih, List.filter_cons]
      by_cases hcond : (e.lamportTS == ts && e.agentID == agent) = true
      · rw [if_pos hcond]
        rw [Bool.and_eq_true, beq_iff_eq, beq_iff_eq] at hcond
        obtain ⟨hts, hag⟩ := hcond
        have hcellpos : cellAt
            (fun ts' => if ts' = e.lamportTS then some (applyEvent row e)
              else rowMap ts') ts agent = some ⟨e, cellLabel e.kind⟩ := by
          rw [cellAt]
          try dsimp only
          rw [if_pos hts.symm, Option.some_bind, applyEvent]
          try dsimp only
          rw [if_pos hag.symm]
        cases hfl : (es.filter fun e' =>
            e'.lamportTS == ts && e'.agentID == agent) with
        | nil =>
          simp only [List.getLast?_singleton, List.getLast?_nil]
          exact hcellpos
        | cons f0 fs =>
          rw [List.getLast?_cons_cons]
          cases hgl : (f0 :: fs).getLast? with
          | none => exact absurd (List.getLast?_eq_none_iff.mp hgl) (by simp)
          | some e' => rfl
      · rw [if_neg hcond]
        have hcellneg : cellAt
            (fun ts' => if ts' = e.lamportTS then some (applyEvent row e)
              else rowMap ts') ts agent = cellAt rowMap ts agent := by
          rw [cellAt, cellAt]
          try dsimp only
          by_cases hts : ts = e.lamportTS
          · rw [if_pos hts, hts, hm, Option.some_bind, Option.some_bind,
              applyEvent]
            try dsimp only
            rw [if_neg ?hag]
            case hag =>
              intro hc
              apply hcond
              rw [Bool.and_eq_true, beq_iff_eq, beq_iff_eq]
              exact ⟨hts.symm, hc.symm⟩
          · rw [if_neg hts]
        rw [hcellneg]
    | none =>
      dsimp only
      rw [ih, List.filter_cons]
      by_cases hcond : (e.lamportTS == ts && e.agentID == agent) = true
      · rw [if_pos hcond]
        rw [Bool.and_eq_true, beq_iff_eq, beq_iff_eq] at hcond
        obtain ⟨hts, hag⟩ := hcond
        have hcellpos : cellAt
            (fun ts' => if ts' = e.lamportTS then
                some (applyEvent ⟨e.lamportTS, fun _ => none, []⟩ e)
              else rowMap ts') ts agent = some ⟨e, cellLabel e.kind⟩ := by
          rw [cellAt]
          try dsimp only
          rw [if_pos hts.symm, Option.some_bind, applyEvent]
          try dsimp only
          rw [if_pos hag.symm]
        cases hfl : (es.filter fun e' =>
            e'.lamportTS == ts && e'.agentID == agent) with
        | nil =>
          simp only [List.getLast?_singleton, List.getLast?_nil]
          exact hcellpos
        | cons f0 fs =>
          rw [List.getLast?_cons_cons]
          cases hgl : (f0 :: fs).getLast? with
          | none => exact absurd (List.getLast?_eq_none_iff.mp hgl) (by simp)
          | some e' => rfl
      · rw [if_neg hcond]
        have hcellneg : cellAt
            (fun ts' => if ts' = e.lamportTS then
                some (applyEvent ⟨e.lamportTS, fun _ => none, []⟩ e)
              else rowMap ts') ts agent = cellAt rowMap ts agent := by
          rw [cellAt, cellAt]
          try dsimp only
          by_cases hts : ts = e.lamportTS
          · rw [if_pos hts, hts, hm, Option.some_bind, applyEvent]
            try dsimp only
            rw [if_neg ?hag]
            case hag =>
              intro hc
              apply hcond
              rw [Bool.and_eq_true, beq_iff_eq, beq_iff_eq]
              exact ⟨hts.symm, hc.symm⟩
            rfl
          · rw [if_neg hts]
        rw [hcellneg]

/-- C8 counterexample: with two same-agent events at one clock value — a
message then a heartbeat — the diagram's only cell for that row and agent
holds the heartbeat's marker, not the message's own ">" marker, so not every
input event is represented by its own marker. -/
theorem buildDiagramData_overwrites_counterexample :
    (buildDiagramData [cexAgent] [cexMsg, cexHeartbeat]).2.map
        (fun r => (r.lamportTS, r.cells "bob")) =
      [(1, some ⟨cexHeartbeat, cellLabel EventKind.progress⟩)] ∧
      cexHeartbeat ≠ cexMsg ∧ cellLabel cexMsg.kind = ">" := by
  refine ⟨?_, by decide, rfl⟩
  rfl

/-- C8 (amended): every event that is the last of its (clock, agent) pair in
input order has its kind-coded marker in the cell at (its clock's row, its
agent's column); when several input events share agent and clock, the cell
keeps the last such event's marker. -/
theorem buildDiagramData_marker_placed (agents : List Agent)
    (events : List Event) (e : Event)
    (hlast : (events.filter fun e' =>
        e'.lamportTS == e.lamportTS && e'.agentID == e.agentID).getLast? =
      some e) :
    ∃ r ∈ (buildDiagramData agents events).2,
      r.lamportTS = e.lamportTS ∧
        r.cells e.agentID = some ⟨e, cellLabel e.kind⟩ := by
  obtain ⟨hdom, hts, hnd, htss⟩ :=
    diagramLoop_inv events (fun _ => none) [] (by simp) (by simp)
      List.nodup_nil
  have hcell := diagramLoop_cellAt events (fun _ => none) [] e.lamportTS
    e.agentID
  rw [hlast] at hcell
  rw [cellAt] at hcell
  cases hmrow : (diagramLoop (fun _ => none) [] events).1 e.lamportTS with
  | none =>
    rw [hmrow] at hcell
    simp at hcell
  | some r =>
    rw [hmrow, Option.some_bind] at hcell
    refine ⟨r, ?_, hts _ _ hmrow, hcell⟩
    rw [buildDiagramData]
    dsimp only
    rw [List.mem_filterMap]
    refine ⟨e.lamportTS, ?_, hmrow⟩
    rw [(sortInt64s_perm _).mem_iff]
    refine (hdom _).mp ?_
    rw [hmrow]
    rfl

/-- Witness for the amended C8 at the counterexample input: the heartbeat is
the last event of its (clock, agent) pair and its marker is in the cell. -/
theorem buildDiagramData_marker_placed_witness :
    (([cexMsg, cexHeartbeat].filter fun e' =>
        e'.lamportTS == cexHeartbeat.lamportTS &&
          e'.agentID == cexHeartbeat.agentID).getLast? = some cexHeartbeat) ∧
      ∃ r ∈ (buildDiagramData [cexAgent] [cexMsg, cexHeartbeat]).2,
        r.lamportTS = cexHeartbeat.lamportTS ∧
          r.cells cexHeartbeat.agentID =
            some ⟨cexHeartbeat, cellLabel cexHeartbeat.kind⟩ :=
  ⟨by decide, buildDiagramData_marker_placed _ _ _ (by decide)⟩

/-- Witness for C5 at the body "hello world" and width 5. -/
theorem wrapText_lossless_witness :
    (0 : Int) < 5 ∧
      Rejoin
        (wrapText ['h', 'e', 'l', 'l', 'o', ' ', 'w', 'o', 'r', 'l', 'd'] 5)
        ['h', 'e', 'l', 'l', 'o', ' ', 'w', 'o', 'r', 'l', 'd'] :=
  ⟨by norm_num,
    wrapText_lossless ['h', 'e', 'l', 'l', 'o', ' ', 'w', 'o', 'r', 'l', 'd'] 5
      (by norm_num)⟩

/-- C6: a successful `Build` fetches the event list anchored at
`max(maxEventID - 500, 0)` with limit 500 — so the newest events are
retained whenever the total exceeds 500 — and sets the snapshot's
`TotalEvents` from the direct count query, not from the maximum event id. -/
theorem build_anchor_and_count
    (computeFrontier : List Pointstamp → List Pointstamp)
    (computeFrontierStatus :
      String → Timestamp → List Pointstamp → FrontierStatus)
    (now : Int) (s : Store) (snap : DataSnapshot)
    (h : Build computeFrontier computeFrontierStatus now s = Except.ok snap) :
    s.listEventsSinceID (max (s.maxEventID - 500) 0) 500 =
        Except.ok snap.events ∧
      snap.totalEvents = s.countEvents := by
  rw [Build] at h
  cases ha : s.listAgents with
  | error err =>
    rw [ha] at h
    simp only [Except.instMonad, Except.bind, Except.map, Functor.map,
      Bind.bind, Pure.pure, Except.pure] at h
    exact Except.noConfusion h
  | ok agents =>
    rw [ha] at h
    simp only [Except.instMonad, Except.bind, Except.map, Functor.map,
      Bind.bind, Pure.pure, Except.pure] at h
    cases he : s.listEventsSinceID
        (if s.maxEventID - eventLimit < 0 then 0
          else s.maxEventID - eventLimit) eventLimit with
    | error err =>
      rw [he] at h
      simp only at h
      exact Except.noConfusion h
    | ok events =>
      rw [he] at h
      simp only at h
      cases hl : s.listLocks with
      | error err =>
        rw [hl] at h
        simp only at h
        exact Except.noConfusion h
      | ok locks =>
        rw [hl] at h
        simp only at h
        cases hp : s.getActivePointstamps with
        | error err =>
          rw [hp] at h
          simp only at h
          exact Except.noConfusion h
        | ok active =>
          rw [hp] at h
          simp only at h
          cases h
          have hanchor :
              (if s.maxEventID - eventLimit < 0 then 0
                else s.maxEventID - eventLimit) =
                max (s.maxEventID - 500) 0 := by
            rw [eventLimit]
            split_ifs with h' <;> omega
          rw [hanchor] at he
          simp only [eventLimit] at he
          exact ⟨he, rfl⟩

/-- A concrete store used to witness the snapshot-builder theorem. -/
def witnessStore : Store :=
  { listAgents := Except.ok []
    maxEventID := 700
    listEventsSinceID := fun _ _ => Except.ok []
    listLocks := Except.ok []
    getActivePointstamps := Except.ok []
    countEvents := 42 }

/-- Witness for C6: building against `witnessStore` succeeds, the event
fetch is anchored at `max(700 - 500, 0) = 200`, and `totalEvents` is the
count query's 42. -/
theorem build_anchor_and_count_witness :
    Build (fun ps => ps) (fun _ _ _ => ⟨true, []⟩) 0 witnessStore =
        Except.ok ⟨[], [], [], [], [], 0, 0, 42, 0, 0⟩ ∧
      (witnessStore.listEventsSinceID
          (max (witnessStore.maxEventID - 500) 0) 500 =
          Except.ok
            (⟨[], [], [], [], [], 0, 0, 42, 0, 0⟩ : DataSnapshot).events ∧
        (⟨[], [], [], [], [], 0, 0, 42, 0, 0⟩ : DataSnapshot).totalEvents =
          witnessStore.countEvents) :=
  ⟨rfl, build_anchor_and_count (fun ps => ps) (fun _ _ _ => ⟨true, []⟩) 0
    witnessStore ⟨[], [], [], [], [], 0, 0, 42, 0, 0⟩ rfl⟩

/-- Unfolding one step of the watcher run. -/
theorem watcherRun_cons (dbBase : String) (st : WatcherState)
    (a : WatcherAct) (acts : List WatcherAct) :
    watcherRun dbBase st (a :: acts) =
      watcherRun dbBase (watcherStep dbBase st a) acts := rfl

/-- Appending one action to the watcher run. -/
theorem watcherRun_append_single (dbBase : String) (st : WatcherState)
    (acts : List WatcherAct) (a : WatcherAct) :
    watcherRun dbBase st (acts ++ [a]) =
      watcherStep dbBase (watcherRun dbBase st acts) a := by
  rw [watcherRun, watcherRun, List.foldl_append]
  rfl

/-- Notifications never change the channel contents. -/
theorem watcherRun_notify_chan (dbBase : String) :
    ∀ (burst : List WatcherAct) (st : WatcherState),
      (∀ a ∈ burst, isNotify a = true) →
      (watcherRun dbBase st burst).chan = st.chan := by
  intro burst
  induction burst with
  | nil => intro st _; rfl
  | cons a acts ih =>
    intro st hall
    cases a with
    | notify base op =>
      rw [watcherRun_cons]
      rw [ih _ (fun x hx => hall x (List.mem_cons_of_mem _ hx))]
      rw [watcherStep]
      split_ifs <;> rfl
    | timerFire =>
      exact absurd (hall _ (List.mem_cons_self _ _)) (by simp [isNotify])
    | consume =>
      exact absurd (hall _ (List.mem_cons_self _ _)) (by simp [isNotify])

/-- Notifications never disarm an armed timer. -/
theorem watcherRun_notify_armed (dbBase : String) :
    ∀ (burst : List WatcherAct) (st : WatcherState),
      (∀ a ∈ burst, isNotify a = true) →
      st.timerArmed = true →
      (watcherRun dbBase st burst).timerArmed = true := by
  intro burst
  induction burst with
  | nil => intro st _ h; exact h
  | cons a acts ih =>
    intro st hall harm
    cases a with
    | notify base op =>
      rw [watcherRun_cons]
      refine ih _ (fun x hx => hall x (List.mem_cons_of_mem _ hx)) ?_
      rw [watcherStep]
      split_ifs <;> simp [harm]
    | timerFire =>
      exact absurd (hall _ (List.mem_cons_self _ _)) (by simp [isNotify])
    | consume =>
      exact absurd (hall _ (List.mem_cons_self _ _)) (by simp [isNotify])

/-- A notification burst containing at least one relevant write-or-create
leaves the debounce timer armed. -/
theorem watcherRun_burst_arms (dbBase : String) :
    ∀ (burst : List WatcherAct) (st : WatcherState),
      (∀ a ∈ burst, isNotify a = true) →
      (∃ base op, WatcherAct.notify base op ∈ burst ∧
        relevantBase dbBase base = true ∧
        (op = FsOp.write ∨ op = FsOp.create)) →
      (watcherRun dbBase st burst).timerArmed = true := by
  intro burst
  induction burst with
  | nil =>
    rintro st _ ⟨base, op, hmem, -, -⟩
    exact absurd hmem (List.not_mem_nil _)
  | cons a acts ih =>
    rintro st hall ⟨base, op, hmem, hrel, hop⟩
    rw [watcherRun_cons]
    rcases List.mem_cons.mp hmem with heq | hmem'
    · have harm : (watcherStep dbBase st a).timerArmed = true := by
        rw [← heq, watcherStep]
        rw [if_pos ?cond]
        case cond =>
          rw [hrel]
          rcases hop with rfl | rfl <;> rfl
      exact watcherRun_notify_armed dbBase acts _
        (fun x hx => hall x (List.mem_cons_of_mem _ hx)) harm
    · exact ih _ (fun x hx => hall x (List.mem_cons_of_mem _ hx))
        ⟨base, op, hmem', hrel, hop⟩

/-- C9: over any burst of rapid notifications within one debounce window
that contains at least one relevant write-or-create (to the primary, "-wal"
or "-shm" file), starting with an empty channel, the timer fire that closes
the window leaves exactly one "changed" signal pending; a fire with a signal
already un-consumed never duplicates it; and under any action sequence the
capacity-one channel never holds more than one signal. -/
theorem watcher_debounce_exactly_once (dbBase : String) (st : WatcherState)
    (burst : List WatcherAct)
    (hburst : ∀ a ∈ burst, isNotify a = true)
    (hrelevant : ∃ base op, WatcherAct.notify base op ∈ burst ∧
      relevantBase dbBase base = true ∧ (op = FsOp.write ∨ op = FsOp.create))
    (hempty : st.chan = 0) :
    (watcherRun dbBase st (burst ++ [WatcherAct.timerFire])).chan = 1 ∧
      (∀ st' : WatcherState, st'.chan = 1 →
        (watcherStep dbBase st' WatcherAct.timerFire).chan = 1) ∧
      ∀ (acts : List WatcherAct) (st' : WatcherState), st'.chan ≤ 1 →
        (watcherRun dbBase st' acts).chan ≤ 1 := by
  refine ⟨?_, ?_, ?_⟩
  · rw [watcherRun_append_single]
    have harm := watcherRun_burst_arms dbBase burst st hburst hrelevant
    have hchan := watcherRun_notify_chan dbBase burst st hburst
    rw [watcherStep, if_pos harm, hchan, hempty]
    rfl
  · intro st' h1
    rw [watcherStep]
    split_ifs with harm hzero
    · rfl
    · exact h1
    · exact h1
  · intro acts
    induction acts with
    | nil => intro st' h; exact h
    | cons a rest ih =>
      intro st' h
      rw [watcherRun_cons]
      refine ih _ ?_
      cases a with
      | notify base op =>
        rw [watcherStep]
        split_ifs <;> exact h
      | timerFire =>
        rw [watcherStep]
        split_ifs
        · exact le_refl 1
        · exact h
        · exact h
      | consume =>
        rw [watcherStep]
        split_ifs with hpos
        · exact le_trans (Nat.sub_le _ _) h
        · exact h

/-- Witness for C9: a two-write burst on the primary file, starting from an
idle watcher, yields exactly one pending signal after the debounce window
closes. -/
theorem watcher_debounce_exactly_once_witness :
    (∀ a ∈ [WatcherAct.notify "clockmail.db" FsOp.write,
        WatcherAct.notify "clockmail.db-wal" FsOp.write],
      isNotify a = true) ∧
      ((⟨false, 0⟩ : WatcherState).chan = 0) ∧
      ((watcherRun "clockmail.db" ⟨false, 0⟩
          ([WatcherAct.notify "clockmail.db" FsOp.write,
            WatcherAct.notify "clockmail.db-wal" FsOp.write] ++
            [WatcherAct.timerFire])).chan = 1 ∧
        (∀ st' : WatcherState, st'.chan = 1 →
          (watcherStep "clockmail.db" st' WatcherAct.timerFire).chan = 1) ∧
        ∀ (acts : List WatcherAct) (st' : WatcherState), st'.chan ≤ 1 →
          (watcherRun "clockmail.db" st' acts).chan ≤ 1) :=
  ⟨by decide, rfl,
    watcher_debounce_exactly_once "clockmail.db" ⟨false, 0⟩
      [WatcherAct.notify "clockmail.db" FsOp.write,
        WatcherAct.notify "clockmail.db-wal" FsOp.write]
      (by decide)
      ⟨"clockmail.db", FsOp.write, by decide, by decide, Or.inl rfl⟩
      rfl⟩

/-- C10: in the Agent-Detail view every "Messages Sent" / "Messages
Received" entry shows its event's body cut inline at 80 bytes plus "..."
(so a body over 80 bytes is shown as exactly its first 80 bytes and an
ellipsis, at most 83 bytes in all), and every "Recent Activity" message
entry shows the body via `truncate(body, 60)`, at most 63 bytes — unlike the
Messages and Timeline views, the detail view never wraps a long body in
full. -/
theorem agentDetail_truncates (events : List Event) (agentID : String) :
    (∀ p ∈ sentEntries events agentID, ∃ e ∈ events,
      e.kind = EventKind.msg ∧ e.agentID = agentID ∧
      p.2.2 = (if 80 < e.body.length then e.body.take 80 ++ ['.', '.', '.']
        else e.body) ∧
      p.2.2.length ≤ 83) ∧
    (∀ p ∈ recvEntries events agentID, ∃ e ∈ events,
      e.kind = EventKind.msg ∧ e.target = agentID ∧
      p.2.2 = (if 80 < e.body.length then e.body.take 80 ++ ['.', '.', '.']
        else e.body) ∧
      p.2.2.length ≤ 83) ∧
    ∀ p ∈ activityEntries events agentID, ∃ e ∈ events,
      e.agentID = agentID ∧ p.2.1 = e.kind ∧
      (e.kind = EventKind.msg →
        p.2.2 = truncate e.body 60 ∧ p.2.2.length ≤ 63) := by
  refine ⟨?_, ?_, ?_⟩
  · intro p hp
    rw [sentEntries] at hp
    obtain ⟨e, he, rfl⟩ := List.mem_map.mp hp
    have he' := List.take_subset _ _ he
    obtain ⟨hrev, hcond⟩ := List.mem_filter.mp he'
    rw [Bool.and_eq_true, beq_iff_eq, beq_iff_eq] at hcond
    refine ⟨e, List.mem_reverse.mp hrev, hcond.1, hcond.2, rfl, ?_⟩
    dsimp only
    split_ifs with hlen
    · rw [List.length_append, List.length_take]
      simp only [List.length_cons, List.length_nil]
      omega
    · omega
  · intro p hp
    rw [recvEntries] at hp
    obtain ⟨e, he, rfl⟩ := List.mem_map.mp hp
    have he' := List.take_subset _ _ he
    obtain ⟨hrev, hcond⟩ := List.mem_filter.mp he'
    rw [Bool.and_eq_true, beq_iff_eq, beq_iff_eq] at hcond
    refine ⟨e, List.mem_reverse.mp hrev, hcond.1, hcond.2, rfl, ?_⟩
    dsimp only
    split_ifs with hlen
    · rw [List.length_append, List.length_take]
      simp only [List.length_cons, List.length_nil]
      omega
    · omega
  · intro p hp
    rw [activityEntries] at hp
    obtain ⟨e, he, rfl⟩ := List.mem_map.mp hp
    have he' := List.take_subset _ _ he
    obtain ⟨hrev, hcond⟩ := List.mem_filter.mp he'
    rw [beq_iff_eq] at hcond
    refine ⟨e, List.mem_reverse.mp hrev, hcond, rfl, ?_⟩
    intro hmsg
    rw [hmsg]
    dsimp only
    refine ⟨rfl, ?_⟩
    rw [truncate]
    split_ifs with hlen
    · omega
    · rw [List.length_append, List.length_take]
      simp only [List.length_cons, List.length_nil]
      omega

/-- Witness for C10 at a concrete event list: a 100-byte message body is
shown as 83 bytes in "Messages Sent" and 63 bytes in "Recent Activity". -/
theorem agentDetail_truncates_witness :
    (∀ p ∈ sentEntries witnessEvents "alice", ∃ e ∈ witnessEvents,
      e.kind = EventKind.msg ∧ e.agentID = "alice" ∧
      p.2.2 = (if 80 < e.body.length then e.body.take 80 ++ ['.', '.', '.']
        else e.body) ∧
      p.2.2.length ≤ 83) ∧
    (∀ p ∈ recvEntries witnessEvents "alice", ∃ e ∈ witnessEvents,
      e.kind = EventKind.msg ∧ e.target = "alice" ∧
      p.2.2 = (if 80 < e.body.length then e.body.take 80 ++ ['.', '.', '.']
        else e.body) ∧
      p.2.2.length ≤ 83) ∧
    ∀ p ∈ activityEntries witnessEvents "alice", ∃ e ∈ witnessEvents,
      e.agentID = "alice" ∧ p.2.1 = e.kind ∧
      (e.kind = EventKind.msg →
        p.2.2 = truncate e.body 60 ∧ p.2.2.length ≤ 63) :=
  agentDetail_truncates witnessEvents "alice"

end ClockmailViewer
